import Mathlib

/-!
Verification development for the auto-save plugin (src/auto_save.py).

The embedding below mirrors the source module:
a View carries the queryable state the plugin reads from the host
(is_dirty, is_loading, file_name); a SettingsStore carries the three keys
the module touches in the settings object returned by load_settings
(auto_save_on_modified, auto_save_delay_in_seconds, and the
auto_save_document_last_loaded key written by on_load).  Settings values
read with get are absent-or-present, so the boolean setting is an
Option Bool evaluated by Python truthiness (truthy below).

The functions callback, debounce_save, on_modified, on_load and
AutoSaveCommand_run are direct translations of the corresponding
functions of the source.  The shared class attribute save_queue is
passed explicitly as a List Nat (a token is the literal 0 the source
appends).  Timer scheduling is represented by the Option returned by
on_modified (the delay handed to Timer) and, for temporal claims, by an
explicit timed action list fed to a small-step simulator.
-/

/-- The host view state the plugin queries. -/
structure View where
  is_dirty : Bool
  is_loading : Bool
  file_name : Option String
deriving DecidableEq

/-- The keys of auto_save.sublime-settings that the module reads or writes. -/
structure SettingsStore where
  auto_save_on_modified : Option Bool
  auto_save_delay_in_seconds : ℚ
  auto_save_document_last_loaded : Option String
deriving DecidableEq

/-- Python truthiness of an optional boolean setting value. -/
def truthy : Option Bool → Bool
  | none => false
  | some b => b

/-- The callback closure inside on_modified: the Save Gate.  Returns true
iff the host save primitive (view.run_command of save) is invoked. -/
def callback (v : View) : Bool :=
  if !v.is_dirty || v.is_loading then false else true

/-- The debounce_save closure inside on_modified: the drain step.  First
component is the queue afterwards; second component is true iff the
callback was handed to set_timeout (Save Gate invoked). -/
def debounce_save (q : List Nat) : List Nat × Bool :=
  if 1 < q.length then (q.dropLast, false) else ([], true)

/-- AutoSaveListener.on_modified.  First component is the save_queue
afterwards; second component is the delay handed to Timer when a timer
was started, none when no timer was started. -/
def on_modified (s : SettingsStore) (v : View) (q : List Nat) : List Nat × Option ℚ :=
  if !truthy s.auto_save_on_modified then (q, none)
  else if !v.is_dirty then (q, none)
  else
    let delay := s.auto_save_delay_in_seconds
    if truthy s.auto_save_on_modified && v.file_name.isSome && v.is_dirty
    then (q ++ [0], some delay)
    else (q, none)

/-- AutoSaveListener.on_load.  The source sets the timestamp key on the
object returned by load_settings (the global plugin settings), while the
per-view store view.settings() is only read for logging; the save_queue
is untouched.  Arguments: the formatted current time, the global
settings, the value of the timestamp key in view.settings(), and the
queue; result: the three stores afterwards. -/
def on_load (now : String) (gs : SettingsStore) (view_settings : Option String)
    (q : List Nat) : SettingsStore × Option String × List Nat :=
  ({ gs with auto_save_document_last_loaded := some now }, view_settings, q)

/-- AutoSaveCommand.run: the toggle command.  It takes no argument beyond
the current settings; result is the settings afterwards and the status
message emitted. -/
def AutoSaveCommand_run (s : SettingsStore) : SettingsStore × String :=
  if truthy s.auto_save_on_modified then
    ({ s with auto_save_on_modified := some false }, "AutoSave Turned Off")
  else
    ({ s with auto_save_on_modified := some true }, "AutoSave Turned On")

/-- The combined guard under which on_modified appends a token and starts
a timer: feature truthy, view dirty, and a backing file present. -/
def guardPass (s : SettingsStore) (v : View) : Bool :=
  truthy s.auto_save_on_modified && v.is_dirty && v.file_name.isSome

/-- A timed action delivered to the plugin: a modification event (with
the settings and view state current at that instant) or the expiry of
one debounce timer (with the view state current at that instant). -/
inductive Act where
  | mod (s : SettingsStore) (v : View)
  | drn (v : View)
deriving DecidableEq

/-- One step of the event/timer interleaving: state is (save_queue,
times at which the host save primitive ran). -/
def simStep (st : List Nat × List ℚ) (a : ℚ × Act) : List Nat × List ℚ :=
  match a.2 with
  | Act.mod s v => ((on_modified s v st.1).1, st.2)
  | Act.drn v =>
    let d := debounce_save st.1
    (d.1, st.2 ++ (if d.2 && callback v then [a.1] else []))

/-- Run a chronological list of timed actions from a given state. -/
def simAux (st : List Nat × List ℚ) (as : List (ℚ × Act)) : List Nat × List ℚ :=
  as.foldl simStep st

/-- Run a chronological list of timed actions from the initial state
(empty queue, no saves), as at plugin load. -/
def simulate (as : List (ℚ × Act)) : List Nat × List ℚ :=
  simAux ([], []) as

/-- Recognizer for modification actions. -/
def isModA : Act → Bool
  | Act.mod _ _ => true
  | Act.drn _ => false

/-- Recognizer for drain actions. -/
def isDrnA : Act → Bool
  | Act.mod _ _ => false
  | Act.drn _ => true

/-- Number of modification actions in a timed trace. -/
def modCnt (p : List (ℚ × Act)) : Nat :=
  p.countP (fun x => isModA x.2)

/-- Number of drain actions in a timed trace. -/
def drnCnt (p : List (ℚ × Act)) : Nat :=
  p.countP (fun x => isDrnA x.2)

/-- Number of guard-passing modification actions in a timed trace. -/
def guardCnt (p : List (ℚ × Act)) : Nat :=
  p.countP (fun x => match x.2 with
    | Act.mod s v => guardPass s v
    | Act.drn _ => false)

/-- Fold a history of on_modified calls, each carrying the settings and
view state read at that instant, over the shared queue. -/
def runMods (hist : List (SettingsStore × View)) (q : List Nat) : List Nat :=
  hist.foldl (fun acc sv => (on_modified sv.1 sv.2 acc).1) q

/-- Chronological ordering of timed actions: earlier or simultaneous. -/
def timeLE (a b : ℚ × Act) : Prop := a.1 ≤ b.1

instance : IsTrans (ℚ × Act) timeLE := ⟨fun _ _ _ => le_trans⟩

instance : DecidableRel timeLE := fun a b => inferInstanceAs (Decidable (a.1 ≤ b.1))

/-- Program counter of one drain (Timer) thread executing debounce_save,
split at the granularity of the individual queue operations the source
performs: the length read, the pop, and the schedule-callback-and-reset. -/
inductive DrainPC where
  | start
  | willPop
  | willGate
  | done
deriving DecidableEq

/-- Shared state for concurrently executing drain threads: the queue,
the number of Save Gate invocations so far, and each thread's counter. -/
structure CState where
  queue : List Nat
  gates : Nat
  threads : List DrainPC
deriving DecidableEq

/-- Interleaved small-step semantics of the source's drain step: each
single queue operation is atomic (as under the CPython interpreter), but
nothing serializes the length-check/pop/reset sequence, and the host
thread may run a guard-passing on_modified (append a token and spawn a
future drain thread) between any two of them. -/
inductive CStep : CState → CState → Prop where
  | readHi (q g l r) : 1 < q.length →
      CStep ⟨q, g, l ++ DrainPC.start :: r⟩ ⟨q, g, l ++ DrainPC.willPop :: r⟩
  | readLo (q g l r) : q.length ≤ 1 →
      CStep ⟨q, g, l ++ DrainPC.start :: r⟩ ⟨q, g, l ++ DrainPC.willGate :: r⟩
  | popTok (q g l r) :
      CStep ⟨q, g, l ++ DrainPC.willPop :: r⟩ ⟨q.dropLast, g, l ++ DrainPC.done :: r⟩
  | fireGate (q g l r) :
      CStep ⟨q, g, l ++ DrainPC.willGate :: r⟩ ⟨[], g + 1, l ++ DrainPC.done :: r⟩
  | hostMod (q g th s v) : guardPass s v = true →
      CStep ⟨q, g, th⟩ ⟨q ++ [0], g, th ++ [DrainPC.start]⟩

/-- Sample settings: feature on, delay 1 second, timestamp key absent. -/
def sOn : SettingsStore := ⟨some true, 1, none⟩

/-- Sample settings: feature explicitly off. -/
def sOff : SettingsStore := ⟨some false, 1, none⟩

/-- Sample settings: as sOn but with a different timestamp key, to show
decisions ignore everything except the two live-read fields. -/
def sOn2 : SettingsStore := ⟨some true, 1, some "2020-01-01 00:00:00.000000"⟩

/-- Sample view: dirty, not loading, backed by a file. -/
def vDirty : View := ⟨true, false, some "test.txt"⟩

/-- Sample view: dirty but mid-reload. -/
def vLoading : View := ⟨true, true, some "test.txt"⟩

/-- Sample view: clean. -/
def vClean : View := ⟨false, false, some "test.txt"⟩

/-- The queue after on_modified: one token appended exactly when the
guard passes. -/
theorem on_modified_queue (s : SettingsStore) (v : View) (q : List Nat) :
    (on_modified s v q).1 = if guardPass s v then q ++ [0] else q := by
  cases he : truthy s.auto_save_on_modified <;>
    cases hd : v.is_dirty <;>
    cases hf : v.file_name.isSome <;>
      simp [on_modified, guardPass, he, hd, hf]

/-- The timer started by on_modified: the settings delay exactly when
the guard passes. -/
theorem on_modified_timer (s : SettingsStore) (v : View) (q : List Nat) :
    (on_modified s v q).2 = if guardPass s v then some s.auto_save_delay_in_seconds
      else none := by
  cases he : truthy s.auto_save_on_modified <;>
    cases hd : v.is_dirty <;>
    cases hf : v.file_name.isSome <;>
      simp [on_modified, guardPass, he, hd, hf]

/-- A modification action only runs on_modified on the queue. -/
theorem simStep_mod (st : List Nat × List ℚ) (t : ℚ) (s : SettingsStore) (v : View) :
    simStep st (t, Act.mod s v) = ((on_modified s v st.1).1, st.2) := rfl

/-- A drain action on a queue holding more than one token pops and does
not invoke the gate. -/
theorem simStep_drn_pop (q : List Nat) (sv : List ℚ) (t : ℚ) (v : View)
    (h : 1 < q.length) :
    simStep (q, sv) (t, Act.drn v) = (q.dropLast, sv) := by
  simp [simStep, debounce_save, h]

/-- A drain action on a queue holding at most one token resets the queue
and invokes the gate; the save time is recorded iff the callback saves. -/
theorem simStep_drn_gate (q : List Nat) (sv : List ℚ) (t : ℚ) (v : View)
    (h : q.length ≤ 1) :
    simStep (q, sv) (t, Act.drn v) =
      ([], sv ++ (if callback v then [t] else [])) := by
  have h2 : ¬ 1 < q.length := by omega
  simp [simStep, debounce_save, h2]

/-- Claim C2: whenever a drain step reduces the queue to empty and
invokes the Save Gate on a document, the host save primitive runs iff
the document is dirty and not loading at that moment; otherwise the gate
skips silently, the queue is left empty, and nothing further is
scheduled from the skipped save. -/
theorem C2_save_gate (v : View) (t : ℚ) (q : List Nat) (sv : List ℚ)
    (h : q.length ≤ 1) :
    (callback v = true ↔ (v.is_dirty = true ∧ v.is_loading = false)) ∧
    simStep (q, sv) (t, Act.drn v) =
      ([], sv ++ (if v.is_dirty = true ∧ v.is_loading = false then [t] else [])) := by
  constructor
  · cases hd : v.is_dirty <;> cases hl : v.is_loading <;> simp [callback, hd, hl]
  · rw [simStep_drn_gate q sv t v h]
    cases hd : v.is_dirty <;> cases hl : v.is_loading <;> simp [callback, hd, hl]

/-- Witness for C2: a dirty view mid-reload at drain time, with a single
token in the queue: the gate is invoked but no save is recorded and the
skipped save leaves an empty queue and no pending work. -/
theorem C2_save_gate_witness :
    simStep ([0], []) ((5 : ℚ), Act.drn vLoading) =
      ([], [] ++ (if vLoading.is_dirty = true ∧ vLoading.is_loading = false
        then [(5 : ℚ)] else [])) :=
  (C2_save_gate vLoading 5 [0] [] (by decide)).2

/-- Claim C3: a drain step on a queue holding more than one token pops
exactly one token (the last) and invokes nothing; on a queue holding one
or zero tokens it resets the queue to empty and invokes the Save Gate. -/
theorem C3_drain_branches (q : List Nat) :
    (1 < q.length →
      debounce_save q = (q.dropLast, false) ∧
      (debounce_save q).1.length + 1 = q.length) ∧
    (q.length ≤ 1 → debounce_save q = ([], true)) := by
  constructor
  · intro h
    constructor
    · simp [debounce_save, h]
    · simp [debounce_save, h]
      omega
  · intro h
    have h2 : ¬ 1 < q.length := by omega
    simp [debounce_save, h2]

/-- Witness for C3: on a two-token queue the drain pops one token and
does not invoke the gate; on a one-token queue it resets and invokes. -/
theorem C3_drain_branches_witness :
    debounce_save [0, 0] = ([0], false) ∧ debounce_save [0] = ([], true) :=
  ⟨by simpa using ((C3_drain_branches [0, 0]).1 (by decide)).1,
   (C3_drain_branches [0]).2 (by decide)⟩

/-- Claim C4: when auto-save is not truthy in settings, or the document
has no path, or the document is not dirty, on_modified is a no-op: the
queue is unchanged and no timer is started, hence no drain and no save
can result from the call. -/
theorem C4_guard_noop (s : SettingsStore) (v : View) (q : List Nat)
    (h : truthy s.auto_save_on_modified = false ∨ v.file_name = none ∨
      v.is_dirty = false) :
    on_modified s v q = (q, none) := by
  rcases h with h | h | h
  · simp [on_modified, h]
  · cases he : truthy s.auto_save_on_modified <;>
      cases hd : v.is_dirty <;> simp [on_modified, he, hd, h]
  · cases he : truthy s.auto_save_on_modified <;> simp [on_modified, he, h]

/-- Witness for C4: disabled settings, an untitled dirty view, and a
clean view are each a no-op. -/
theorem C4_guard_noop_witness :
    on_modified sOff vDirty [] = ([], none) ∧
    on_modified sOn ⟨true, false, none⟩ [0] = ([0], none) ∧
    on_modified sOn vClean [] = ([], none) :=
  ⟨C4_guard_noop sOff vDirty [] (Or.inl (by decide)),
   C4_guard_noop sOn ⟨true, false, none⟩ [0] (Or.inr (Or.inl rfl)),
   C4_guard_noop sOn vClean [] (Or.inr (Or.inr (by decide)))⟩

/-- Claim C5, counterexample: the toggle command takes no enable
argument; invoked on an enabled configuration it always disables and
emits the Off message, so no invocation matches the claimed behaviour
of an explicit enable=true leaving the configuration enabled with the
On message. -/
theorem C5_counterexample :
    AutoSaveCommand_run sOn =
      ({ sOn with auto_save_on_modified := some false }, "AutoSave Turned Off") ∧
    (AutoSaveCommand_run sOn).2 ≠ "AutoSave Turned On" ∧
    truthy (AutoSaveCommand_run sOn).1.auto_save_on_modified = false := by
  refine ⟨rfl, ?_, rfl⟩
  decide

/-- Claim C5 as amended: the toggle command takes no argument; every
invocation flips the truthiness of the enabled setting, emits the On
message exactly when the new state is enabled and the Off message
otherwise, and changes no other setting. -/
theorem C5_flip_only (s : SettingsStore) :
    truthy (AutoSaveCommand_run s).1.auto_save_on_modified =
      !(truthy s.auto_save_on_modified) ∧
    (AutoSaveCommand_run s).2 =
      (if truthy (AutoSaveCommand_run s).1.auto_save_on_modified
       then "AutoSave Turned On" else "AutoSave Turned Off") ∧
    (AutoSaveCommand_run s).1.auto_save_delay_in_seconds =
      s.auto_save_delay_in_seconds ∧
    (AutoSaveCommand_run s).1.auto_save_document_last_loaded =
      s.auto_save_document_last_loaded := by
  cases he : truthy s.auto_save_on_modified <;>
    simp [AutoSaveCommand_run, he] <;> simp [truthy]

/-- Claim C8: evaluation of on_load at a failing input.  The timestamp
lands in the global plugin settings store while the per-view settings
store (where the claim and the source's own adjacent readback expect a
per-document record) is unchanged; the queue is untouched. -/
theorem C8_on_load_eval :
    (on_load "2026-10-12 00:00:00.000000" sOn none [0]).2.1 = none ∧
    (on_load "2026-10-12 00:00:00.000000" sOn none [0]).1.auto_save_document_last_loaded =
      some "2026-10-12 00:00:00.000000" ∧
    (on_load "2026-10-12 00:00:00.000000" sOn none [0]).2.2 = [0] :=
  ⟨rfl, rfl, rfl⟩

/-- Claim C10: with the enabled setting absent from the settings store,
the toggle command behaves exactly as with the setting explicitly false:
it sets the setting to true and emits the On message. -/
theorem C10_unset_toggle (d : ℚ) (ts : Option String) :
    AutoSaveCommand_run ⟨none, d, ts⟩ =
      (⟨some true, d, ts⟩, "AutoSave Turned On") ∧
    (AutoSaveCommand_run ⟨none, d, ts⟩).2 =
      (AutoSaveCommand_run ⟨some false, d, ts⟩).2 ∧
    (AutoSaveCommand_run ⟨none, d, ts⟩).1.auto_save_on_modified =
      (AutoSaveCommand_run ⟨some false, d, ts⟩).1.auto_save_on_modified :=
  ⟨rfl, rfl, rfl⟩

/-- Claim C9: settings are read fresh at each decision.  Part one: a
single on_modified call depends only on the truthiness of the enabled
setting and on the delay value handed to it at that instant (any other
content of the store, such as the timestamp key, is irrelevant).  Part
two: a whole history of on_modified calls, each carrying the store read
at its own instant, is determined pointwise by those instantaneous
values — no value is cached across calls. -/
theorem C9_fresh_reads :
    (∀ (s s2 : SettingsStore) (v : View) (q : List Nat),
      truthy s.auto_save_on_modified = truthy s2.auto_save_on_modified →
      s.auto_save_delay_in_seconds = s2.auto_save_delay_in_seconds →
      on_modified s v q = on_modified s2 v q) ∧
    (∀ (hist hist2 : List (SettingsStore × View)) (q : List Nat),
      List.Forall₂ (fun a b =>
        truthy a.1.auto_save_on_modified = truthy b.1.auto_save_on_modified ∧
        a.2 = b.2) hist hist2 →
      runMods hist q = runMods hist2 q) := by
  constructor
  · intro s s2 v q h1 h2
    have hg : guardPass s v = guardPass s2 v := by simp [guardPass, h1]
    rw [Prod.ext_iff]
    constructor
    · rw [on_modified_queue, on_modified_queue, hg]
    · rw [on_modified_timer, on_modified_timer, hg, h2]
  · intro hist hist2 q hf
    induction hf generalizing q with
    | nil => rfl
    | @cons a b l1 l2 hab htail ih =>
      show runMods l1 (on_modified a.1 a.2 q).1 = runMods l2 (on_modified b.1 b.2 q).1
      have hq : (on_modified a.1 a.2 q).1 = (on_modified b.1 b.2 q).1 := by
        rw [on_modified_queue, on_modified_queue]
        have hg : guardPass a.1 a.2 = guardPass b.1 b.2 := by
          simp [guardPass, hab.1, hab.2]
        rw [hg]
      rw [hq]
      exact ih ((on_modified b.1 b.2 q).1)

/-- Witness for C9: two stores differing only in the timestamp key give
the same on_modified result and the same queue over a history. -/
theorem C9_fresh_reads_witness :
    on_modified sOn vDirty [] = on_modified sOn2 vDirty [] ∧
    runMods [(sOn, vDirty)] [] = runMods [(sOn2, vDirty)] [] :=
  ⟨C9_fresh_reads.1 sOn sOn2 vDirty [] rfl rfl,
   C9_fresh_reads.2 [(sOn, vDirty)] [(sOn2, vDirty)] []
     (List.Forall₂.cons ⟨rfl, rfl⟩ List.Forall₂.nil)⟩

/-- Helper for C6: as long as no drain finds the queue at one or zero
tokens (no reset), the queue length plus the number of drains executed
equals the initial length plus the number of guard-passing modification
events, so the length is the guard-passing event count minus the pop
count and can never underflow. -/
theorem simAux_len_accounting : ∀ (as : List (ℚ × Act)) (q0 : List Nat) (sv : List ℚ),
    (∀ p t v r, as = p ++ (t, Act.drn v) :: r →
      1 < (simAux (q0, sv) p).1.length) →
    (simAux (q0, sv) as).1.length + drnCnt as = q0.length + guardCnt as := by
  intro as
  induction as with
  | nil =>
    intro q0 sv _
    simp [simAux, drnCnt, guardCnt]
  | cons hd tl ih =>
    intro q0 sv hnr
    obtain ⟨t, a⟩ := hd
    cases a with
    | mod s v =>
      have hr : ∀ p t2 v2 r, tl = p ++ (t2, Act.drn v2) :: r →
          1 < (simAux ((on_modified s v q0).1, sv) p).1.length := by
        intro p t2 v2 r heq
        exact hnr ((t, Act.mod s v) :: p) t2 v2 r (by rw [heq]; rfl)
      have hrec := ih ((on_modified s v q0).1) sv hr
      have hstep : simAux (q0, sv) ((t, Act.mod s v) :: tl) =
          simAux ((on_modified s v q0).1, sv) tl := rfl
      have hlen : ((on_modified s v q0).1).length =
          q0.length + (if guardPass s v then 1 else 0) := by
        rw [on_modified_queue]
        cases hgp : guardPass s v <;> simp
      have hc1 : drnCnt ((t, Act.mod s v) :: tl) = drnCnt tl := by
        simp [drnCnt, List.countP_cons, isDrnA]
      have hc2 : guardCnt ((t, Act.mod s v) :: tl) =
          guardCnt tl + (if guardPass s v then 1 else 0) := by
        simp [guardCnt, List.countP_cons]
      rw [hstep, hc1, hc2]
      cases hgp : guardPass s v <;> simp [hgp] at hlen hrec ⊢ <;> omega
    | drn v =>
      have hq : 1 < q0.length := by
        have h0 := hnr [] t v tl rfl
        simpa [simAux] using h0
      have hstep : simStep (q0, sv) (t, Act.drn v) = (q0.dropLast, sv) :=
        simStep_drn_pop q0 sv t v hq
      have hcons : simAux (q0, sv) ((t, Act.drn v) :: tl) =
          simAux (q0.dropLast, sv) tl := by
        show simAux (simStep (q0, sv) (t, Act.drn v)) tl = simAux (q0.dropLast, sv) tl
        rw [hstep]
      have hr : ∀ p t2 v2 r, tl = p ++ (t2, Act.drn v2) :: r →
          1 < (simAux (q0.dropLast, sv) p).1.length := by
        intro p t2 v2 r heq
        have h2 := hnr ((t, Act.drn v) :: p) t2 v2 r (by rw [heq]; rfl)
        have h3 : simAux (q0, sv) ((t, Act.drn v) :: p) = simAux (q0.dropLast, sv) p := by
          show simAux (simStep (q0, sv) (t, Act.drn v)) p = simAux (q0.dropLast, sv) p
          rw [hstep]
        rwa [h3] at h2
      have hrec := ih q0.dropLast sv hr
      have hc1 : drnCnt ((t, Act.drn v) :: tl) = drnCnt tl + 1 := by
        simp [drnCnt, List.countP_cons, isDrnA]
      have hc2 : guardCnt ((t, Act.drn v) :: tl) = guardCnt tl := by
        simp [guardCnt, List.countP_cons]
      have hdl : q0.dropLast.length = q0.length - 1 := List.length_dropLast q0
      rw [hcons, hc1, hc2]
      omega

/-- Claim C6, counterexample: two guard-passing modification events on
the enabled dirty view followed by one drain leave the queue at length
one, not at the number two of guard-passing events received since the
last drain to empty (no drain to empty has occurred: the only drain saw
length two). -/
theorem C6_counterexample :
    (simulate [((0 : ℚ), Act.mod sOn vDirty), ((0 : ℚ), Act.mod sOn vDirty),
      ((1 : ℚ), Act.drn vDirty)]).1.length = 1 ∧
    guardCnt [((0 : ℚ), Act.mod sOn vDirty), ((0 : ℚ), Act.mod sOn vDirty),
      ((1 : ℚ), Act.drn vDirty)] = 2 ∧
    (simAux (([] : List Nat), ([] : List ℚ)) [((0 : ℚ), Act.mod sOn vDirty),
      ((0 : ℚ), Act.mod sOn vDirty)]).1.length = 2 := by
  refine ⟨?_, ?_, ?_⟩ <;> decide

/-- Claim C6 as amended: the queue is one process-wide list shared by
every document; on any trace segment after the last reset (every drain
in it finds more than one token), its length equals the number of
guard-passing modification events received across all documents since,
minus the number of pop-drains since, and the pop count never exceeds
what was available (no underflow). -/
theorem C6_queue_accounting (as : List (ℚ × Act)) (q0 : List Nat) (sv : List ℚ)
    (hnr : ∀ p t v r, as = p ++ (t, Act.drn v) :: r →
      1 < (simAux (q0, sv) p).1.length) :
    (simAux (q0, sv) as).1.length + drnCnt as = q0.length + guardCnt as ∧
    drnCnt as ≤ q0.length + guardCnt as := by
  have main := simAux_len_accounting as q0 sv hnr
  exact ⟨main, by omega⟩

/-- Witness for C6: a single guard-passing event from the empty queue
(the hypothesis holds vacuously: the trace contains no drain). -/
theorem C6_queue_accounting_witness :
    (simAux (([] : List Nat), ([] : List ℚ))
        [((0 : ℚ), Act.mod sOn vDirty)]).1.length +
      drnCnt [((0 : ℚ), Act.mod sOn vDirty)] =
      ([] : List Nat).length + guardCnt [((0 : ℚ), Act.mod sOn vDirty)] ∧
    drnCnt [((0 : ℚ), Act.mod sOn vDirty)] ≤
      ([] : List Nat).length + guardCnt [((0 : ℚ), Act.mod sOn vDirty)] :=
  C6_queue_accounting [((0 : ℚ), Act.mod sOn vDirty)] [] []
    (by intro p t v r heq; cases p <;> simp_all)

/-- Claim C7, counterexample: without any mutual exclusion, the machine
reaches a state in which two drain threads are simultaneously past
their length check having both observed at most one token (both at
willGate), and from that state both invoke the Save Gate.  The schedule:
one event, its drain reads length one, two further events interleave
before its reset wipes their tokens, and the two corresponding drains
each read an at-most-one-token queue and fire. -/
theorem C7_counterexample :
    Relation.ReflTransGen CStep ⟨[], 0, []⟩
      ⟨[0], 1, [DrainPC.done, DrainPC.willGate, DrainPC.willGate]⟩ ∧
    Relation.ReflTransGen CStep
      ⟨[0], 1, [DrainPC.done, DrainPC.willGate, DrainPC.willGate]⟩
      ⟨[], 3, [DrainPC.done, DrainPC.done, DrainPC.done]⟩ := by
  constructor
  · have s1 : CStep ⟨[], 0, []⟩ ⟨[0], 0, [DrainPC.start]⟩ :=
      CStep.hostMod [] 0 [] sOn vDirty (by decide)
    have s2 : CStep ⟨[0], 0, [DrainPC.start]⟩ ⟨[0], 0, [DrainPC.willGate]⟩ :=
      CStep.readLo [0] 0 [] [] (by decide)
    have s3 : CStep ⟨[0], 0, [DrainPC.willGate]⟩
        ⟨[0, 0], 0, [DrainPC.willGate, DrainPC.start]⟩ :=
      CStep.hostMod [0] 0 [DrainPC.willGate] sOn vDirty (by decide)
    have s4 : CStep ⟨[0, 0], 0, [DrainPC.willGate, DrainPC.start]⟩
        ⟨[], 1, [DrainPC.done, DrainPC.start]⟩ :=
      CStep.fireGate [0, 0] 0 [] [DrainPC.start]
    have s5 : CStep ⟨[], 1, [DrainPC.done, DrainPC.start]⟩
        ⟨[0], 1, [DrainPC.done, DrainPC.start, DrainPC.start]⟩ :=
      CStep.hostMod [] 1 [DrainPC.done, DrainPC.start] sOn vDirty (by decide)
    have s6 : CStep ⟨[0], 1, [DrainPC.done, DrainPC.start, DrainPC.start]⟩
        ⟨[0], 1, [DrainPC.done, DrainPC.willGate, DrainPC.start]⟩ :=
      CStep.readLo [0] 1 [DrainPC.done] [DrainPC.start] (by decide)
    have s7 : CStep ⟨[0], 1, [DrainPC.done, DrainPC.willGate, DrainPC.start]⟩
        ⟨[0], 1, [DrainPC.done, DrainPC.willGate, DrainPC.willGate]⟩ :=
      CStep.readLo [0] 1 [DrainPC.done, DrainPC.willGate] [] (by decide)
    exact .head s1 (.head s2 (.head s3 (.head s4 (.head s5 (.head s6 (.single s7))))))
  · have s8 : CStep ⟨[0], 1, [DrainPC.done, DrainPC.willGate, DrainPC.willGate]⟩
        ⟨[], 2, [DrainPC.done, DrainPC.done, DrainPC.willGate]⟩ :=
      CStep.fireGate [0] 1 [DrainPC.done] [DrainPC.willGate]
    have s9 : CStep ⟨[], 2, [DrainPC.done, DrainPC.done, DrainPC.willGate]⟩
        ⟨[], 3, [DrainPC.done, DrainPC.done, DrainPC.done]⟩ :=
      CStep.fireGate [] 2 [DrainPC.done, DrainPC.done] []
    exact .head s8 (.single s9)

/-- Claim C7 as amended: only the single queue operations are atomic;
the sequence is not protected, so the interleaving above is reachable.
What does hold is that a drain thread whose length check, pop and reset
run without interleaving computes exactly the sequential drain step
debounce_save: one pop and no gate after observing more than one token,
reset and one gate after observing at most one. -/
theorem C7_serialized_drain (q : List Nat) (g : Nat) (l r : List DrainPC) :
    ∃ m, CStep ⟨q, g, l ++ DrainPC.start :: r⟩ m ∧
      CStep m ⟨(debounce_save q).1, g + (if (debounce_save q).2 then 1 else 0),
        l ++ DrainPC.done :: r⟩ := by
  by_cases h : 1 < q.length
  · refine ⟨⟨q, g, l ++ DrainPC.willPop :: r⟩, CStep.readHi q g l r h, ?_⟩
    have e1 : (debounce_save q).1 = q.dropLast := by simp [debounce_save, h]
    have e2 : (if (debounce_save q).2 then 1 else 0) = 0 := by simp [debounce_save, h]
    rw [e1, e2]
    exact CStep.popTok q g l r
  · have hle : q.length ≤ 1 := by omega
    refine ⟨⟨q, g, l ++ DrainPC.willGate :: r⟩, CStep.readLo q g l r hle, ?_⟩
    have e1 : (debounce_save q).1 = [] := by simp [debounce_save, h]
    have e2 : (if (debounce_save q).2 then 1 else 0) = 1 := by simp [debounce_save, h]
    rw [e1, e2]
    exact CStep.fireGate q g l r

/-- The gate saves a dirty, non-loading document. -/
theorem callback_dirty (v : View) (hd : v.is_dirty = true)
    (hl : v.is_loading = false) : callback v = true := by
  simp [callback, hd, hl]

/-- Core drain induction for a burst: running a trace of guard-passing
modification actions and drain actions that ends in a drain, in which
every non-final drain still finds at least two tokens (counted against
the queue) and the final drain finds exactly one, empties the queue and
records exactly one save, at the final drain's time. -/
theorem burst_drain_core (s : SettingsStore) (v : View)
    (hg : guardPass s v = true) (hcb : callback v = true) :
    ∀ (bs : List (ℚ × Act)) (T : ℚ) (q : List Nat) (sv : List ℚ),
    (∀ a ∈ bs ++ [(T, Act.drn v)], a.2 = Act.mod s v ∨ a.2 = Act.drn v) →
    (∀ p t2 r, bs ++ [(T, Act.drn v)] = p ++ (t2, Act.drn v) :: r →
      (r ≠ [] → drnCnt p + 2 ≤ q.length + modCnt p) ∧
      (r = [] → q.length + modCnt p = drnCnt p + 1)) →
    simAux (q, sv) (bs ++ [(T, Act.drn v)]) = ([], sv ++ [T]) := by
  intro bs
  induction bs with
  | nil =>
    intro T q sv _ hsplit
    have h1 : q.length + modCnt [] = drnCnt [] + 1 := (hsplit [] T [] rfl).2 rfl
    have hq : q.length = 1 := by
      simp [modCnt, drnCnt] at h1
      omega
    have h2 : simAux (q, sv) ([] ++ [(T, Act.drn v)]) = simStep (q, sv) (T, Act.drn v) := rfl
    rw [h2, simStep_drn_gate q sv T v (by omega)]
    simp [hcb]
  | cons hd tl ih =>
    intro T q sv hshape hsplit
    obtain ⟨t, a⟩ := hd
    have ha : a = Act.mod s v ∨ a = Act.drn v := hshape (t, a) (by simp)
    rcases ha with ha | ha
    · subst ha
      have hq1 : (on_modified s v q).1 = q ++ [0] := by
        rw [on_modified_queue]; simp [hg]
      have hstep : simAux (q, sv) (((t, Act.mod s v) :: tl) ++ [(T, Act.drn v)]) =
          simAux (q ++ [0], sv) (tl ++ [(T, Act.drn v)]) := by
        show simAux ((on_modified s v q).1, sv) (tl ++ [(T, Act.drn v)]) = _
        rw [hq1]
      rw [hstep]
      apply ih T (q ++ [0]) sv
      · intro a2 ha2
        exact hshape a2 (List.mem_cons_of_mem _ ha2)
      · intro p t2 r heq
        have h2 := hsplit ((t, Act.mod s v) :: p) t2 r (by simp [heq])
        have hm : modCnt ((t, Act.mod s v) :: p) = modCnt p + 1 := by
          simp [modCnt, List.countP_cons, isModA]
        have hd2 : drnCnt ((t, Act.mod s v) :: p) = drnCnt p := by
          simp [drnCnt, List.countP_cons, isDrnA]
        have hlen : (q ++ [0]).length = q.length + 1 := by simp
        constructor
        · intro hr
          have h3 := h2.1 hr
          omega
        · intro hr
          have h3 := h2.2 hr
          omega
    · subst ha
      have h2 := hsplit [] t (tl ++ [(T, Act.drn v)]) rfl
      have hne2 : tl ++ [(T, Act.drn v)] ≠ [] := by simp
      have hlq := h2.1 hne2
      have hq2 : 2 ≤ q.length := by
        simp [modCnt, drnCnt] at hlq
        omega
      have hstep : simAux (q, sv) (((t, Act.drn v) :: tl) ++ [(T, Act.drn v)]) =
          simAux (q.dropLast, sv) (tl ++ [(T, Act.drn v)]) := by
        show simAux (simStep (q, sv) (t, Act.drn v)) (tl ++ [(T, Act.drn v)]) = _
        rw [simStep_drn_pop q sv t v (by omega)]
      rw [hstep]
      apply ih T q.dropLast sv
      · intro a2 ha2
        exact hshape a2 (List.mem_cons_of_mem _ ha2)
      · intro p t2 r heq
        have h3 := hsplit ((t, Act.drn v) :: p) t2 r (by simp [heq])
        have hm : modCnt ((t, Act.drn v) :: p) = modCnt p := by
          simp [modCnt, List.countP_cons, isModA]
        have hd2 : drnCnt ((t, Act.drn v) :: p) = drnCnt p + 1 := by
          simp [drnCnt, List.countP_cons, isDrnA]
        have hdl : q.dropLast.length = q.length - 1 := List.length_dropLast q
        constructor
        · intro hr
          have h4 := h3.1 hr
          omega
        · intro hr
          have h4 := h3.2 hr
          omega

/-- In a strictly increasing list with consecutive gaps below delay, an
element u that is not the final one has a successor within delay, so
strictly more elements lie below u + delay than lie at or below u. -/
theorem succ_count (delay : ℚ) (hdel : 0 < delay) :
    ∀ (ts0 : List ℚ) (tn : ℚ),
    (ts0 ++ [tn]).Pairwise (fun a b : ℚ => a < b) →
    (ts0 ++ [tn]).Chain' (fun a b : ℚ => b < a + delay) →
    ∀ u ∈ ts0,
    (ts0 ++ [tn]).countP (fun x => decide (x ≤ u)) + 1 ≤
      (ts0 ++ [tn]).countP (fun x => decide (x < u + delay)) := by
  intro ts0
  induction ts0 with
  | nil =>
    intro tn _ _ u hu
    simp at hu
  | cons a ts1 ih =>
    intro tn hpw hgap u hu
    have hform : (a :: ts1) ++ [tn] = a :: (ts1 ++ [tn]) := rfl
    rw [hform] at hpw hgap ⊢
    have hpw2 : (ts1 ++ [tn]).Pairwise (fun a b : ℚ => a < b) :=
      (List.pairwise_cons.mp hpw).2
    have hagt : ∀ x ∈ ts1 ++ [tn], a < x := (List.pairwise_cons.mp hpw).1
    rcases List.mem_cons.mp hu with rfl | hu2
    · obtain ⟨c, rest2, hr⟩ := List.exists_cons_of_ne_nil
        (l := ts1 ++ [tn]) (by simp)
      have hgac : c < u + delay := by
        rw [hr] at hgap
        exact (List.chain'_cons.mp hgap).1
      have e1 : (ts1 ++ [tn]).countP (fun x => decide (x ≤ u)) = 0 := by
        rw [List.countP_eq_zero]
        intro x hx
        simp only [decide_eq_true_eq]
        exact not_le.mpr (hagt x hx)
      have e2 : (ts1 ++ [tn]).countP (fun x => decide (x < u + delay)) =
          rest2.countP (fun x => decide (x < u + delay)) + 1 := by
        rw [hr, List.countP_cons]
        simp [hgac]
      rw [List.countP_cons, List.countP_cons, e1, e2]
      have hself : u ≤ u := le_refl u
      have hud : u < u + delay := lt_add_of_pos_right u hdel
      simp [hself, hud]
    · have hgap2 : (ts1 ++ [tn]).Chain' (fun a b : ℚ => b < a + delay) := hgap.tail
      have hrec := ih tn hpw2 hgap2 u hu2
      have hau : a < u := hagt u (List.mem_append_left [tn] hu2)
      have e1 : (a :: (ts1 ++ [tn])).countP (fun x => decide (x ≤ u)) =
          (ts1 ++ [tn]).countP (fun x => decide (x ≤ u)) + 1 := by
        rw [List.countP_cons]
        simp [le_of_lt hau]
      have e2 : (a :: (ts1 ++ [tn])).countP (fun x => decide (x < u + delay)) =
          (ts1 ++ [tn]).countP (fun x => decide (x < u + delay)) + 1 := by
        rw [List.countP_cons]
        have : a < u + delay := lt_trans hau (lt_add_of_pos_right u hdel)
        simp [this]
      rw [e1, e2]
      omega

/-- Counting modification actions across a mapped event list. -/
theorem cntP_map_mod_isMod (s : SettingsStore) (v : View) (l : List ℚ) :
    (l.map (fun u => (u, Act.mod s v))).countP (fun x => isModA x.2) = l.length := by
  rw [List.countP_map]
  have h2 : l.countP ((fun x : ℚ × Act => isModA x.2) ∘ (fun u : ℚ => (u, Act.mod s v))) =
      l.countP (fun _ => true) :=
    List.countP_congr (fun x _ => by simp [Function.comp, isModA])
  rw [h2, List.countP_true]

/-- A mapped event list holds no drain actions. -/
theorem cntP_map_mod_isDrn (s : SettingsStore) (v : View) (l : List ℚ) :
    (l.map (fun u => (u, Act.mod s v))).countP (fun x => isDrnA x.2) = 0 := by
  rw [List.countP_map, List.countP_eq_zero]
  intro x _
  simp [Function.comp, isDrnA]

/-- A mapped drain list holds no modification actions. -/
theorem cntP_map_drn_isMod (v : View) (delay : ℚ) (l : List ℚ) :
    (l.map (fun u => (u + delay, Act.drn v))).countP (fun x => isModA x.2) = 0 := by
  rw [List.countP_map, List.countP_eq_zero]
  intro x _
  simp [Function.comp, isModA]

/-- Counting drain actions across a mapped drain list. -/
theorem cntP_map_drn_isDrn (v : View) (delay : ℚ) (l : List ℚ) :
    (l.map (fun u => (u + delay, Act.drn v))).countP (fun x => isDrnA x.2) = l.length := by
  rw [List.countP_map]
  have h2 : l.countP ((fun x : ℚ × Act => isDrnA x.2) ∘ (fun u : ℚ => (u + delay, Act.drn v))) =
      l.countP (fun _ => true) :=
    List.countP_congr (fun x _ => by simp [Function.comp, isDrnA])
  rw [h2, List.countP_true]

/-- Time-filtered drain count over a mapped event list is zero. -/
theorem cntP_map_mod_isDrn_le (s : SettingsStore) (v : View) (c : ℚ) (l : List ℚ) :
    (l.map (fun u => (u, Act.mod s v))).countP
      (fun y => isDrnA y.2 && decide (y.1 ≤ c)) = 0 := by
  rw [List.countP_map, List.countP_eq_zero]
  intro x _
  simp [Function.comp, isDrnA]

/-- Time-filtered drain count over a mapped drain list. -/
theorem cntP_map_drn_isDrn_le (v : View) (delay c : ℚ) (l : List ℚ) :
    (l.map (fun u => (u + delay, Act.drn v))).countP
      (fun y => isDrnA y.2 && decide (y.1 ≤ c)) =
      l.countP (fun u => decide (u + delay ≤ c)) := by
  rw [List.countP_map]
  apply List.countP_congr
  intro x _
  simp [Function.comp, isDrnA]

/-- Time-filtered modification count over a mapped event list. -/
theorem cntP_map_mod_isMod_lt (s : SettingsStore) (v : View) (c : ℚ) (l : List ℚ) :
    (l.map (fun u => (u, Act.mod s v))).countP
      (fun y => isModA y.2 && decide (y.1 < c)) =
      l.countP (fun u => decide (u < c)) := by
  rw [List.countP_map]
  apply List.countP_congr
  intro x _
  simp [Function.comp, isModA]

/-- Time-filtered modification count over a mapped drain list is zero. -/
theorem cntP_map_drn_isMod_lt (v : View) (delay c : ℚ) (l : List ℚ) :
    (l.map (fun u => (u + delay, Act.drn v))).countP
      (fun y => isModA y.2 && decide (y.1 < c)) = 0 := by
  rw [List.countP_map, List.countP_eq_zero]
  intro x _
  simp [Function.comp, isModA]

/-- A mapped event list holds no occurrence of a drain pair. -/
theorem cntP_map_mod_eq (s : SettingsStore) (v w : View) (c : ℚ) (l : List ℚ) :
    (l.map (fun u => (u, Act.mod s v))).countP
      (fun y => decide (y = (c, Act.drn w))) = 0 := by
  rw [List.countP_map, List.countP_eq_zero]
  intro x _
  simp [Function.comp]

/-- Occurrences of a drain pair in a mapped drain list are occurrences
of its time in the underlying time list. -/
theorem cntP_map_drn_eq (v : View) (delay c : ℚ) (l : List ℚ) :
    (l.map (fun u => (u + delay, Act.drn v))).countP
      (fun y => decide (y = (c + delay, Act.drn v))) =
      l.countP (fun u => decide (u = c)) := by
  rw [List.countP_map]
  apply List.countP_congr
  intro x _
  simp [Function.comp, Prod.ext_iff]

/-- Claim C1: for a burst of one or more modification events on an
enabled, dirty, path-backed document, at strictly increasing times with
consecutive gaps strictly below the configured delay, with each event's
drain timer expiring exactly delay later, any chronological interleaving
of the events and their drains produces exactly one save, at delay after
the last event: a trailing-edge debounce re-armed by every new event. -/
theorem C1_single_burst (s : SettingsStore) (v : View) (delay : ℚ) (ts : List ℚ)
    (hne : ts ≠ [])
    (henabled : truthy s.auto_save_on_modified = true)
    (hdirty : v.is_dirty = true) (hloading : v.is_loading = false)
    (hpath : v.file_name.isSome = true)
    (hdel : 0 < delay)
    (hdset : s.auto_save_delay_in_seconds = delay)
    (hlt : ts.Chain' (fun a b : ℚ => a < b))
    (hgap : ts.Chain' (fun a b : ℚ => b < a + delay))
    (as : List (ℚ × Act))
    (hperm : as.Perm (ts.map (fun u => (u, Act.mod s v)) ++
      ts.map (fun u => (u + delay, Act.drn v))))
    (hsorted : as.Chain' timeLE) :
    (simulate as).2 = [ts.getLast hne + delay] := by
  rcases List.eq_nil_or_concat ts with hnil | ⟨ts0, tn, hts⟩
  · exact absurd hnil hne
  · rw [List.concat_eq_append] at hts
    subst hts
    have hpw_ts : (ts0 ++ [tn]).Pairwise (fun a b : ℚ => a < b) :=
      List.chain'_iff_pairwise.mp hlt
    have hple : as.Pairwise timeLE := List.chain'_iff_pairwise.mp hsorted
    have hmemlt : ∀ x ∈ ts0, x < tn :=
      fun x hx => (List.pairwise_append.mp hpw_ts).2.2 x hx tn (by simp)
    have hmemts : ∀ u ∈ ts0 ++ [tn], u ≤ tn := by
      intro u hu
      rcases List.mem_append.mp hu with h | h
      · exact le_of_lt (hmemlt u h)
      · simp at h
        exact le_of_eq h
    have hmem_as : ∀ a ∈ as,
        (∃ u ∈ ts0 ++ [tn], a = (u, Act.mod s v)) ∨
        (∃ u ∈ ts0 ++ [tn], a = (u + delay, Act.drn v)) := by
      intro a ha
      have h2 := hperm.mem_iff.mp ha
      rcases List.mem_append.mp h2 with h | h
      · obtain ⟨u, hu, he⟩ := List.mem_map.mp h
        exact Or.inl ⟨u, hu, he.symm⟩
      · obtain ⟨u, hu, he⟩ := List.mem_map.mp h
        exact Or.inr ⟨u, hu, he.symm⟩
    have hshape : ∀ a ∈ as, a.2 = Act.mod s v ∨ a.2 = Act.drn v := by
      intro a ha
      rcases hmem_as a ha with ⟨u, _, rfl⟩ | ⟨u, _, rfl⟩
      · exact Or.inl rfl
      · exact Or.inr rfl
    have htimes : ∀ a ∈ as, a ≠ (tn + delay, Act.drn v) → a.1 < tn + delay := by
      intro a ha hne2
      rcases hmem_as a ha with ⟨u, hu, rfl⟩ | ⟨u, hu, rfl⟩
      · exact lt_of_le_of_lt (hmemts u hu) (lt_add_of_pos_right tn hdel)
      · have h3 : u ≠ tn := by
          intro h4
          exact hne2 (by rw [h4])
        have h5 : u < tn := lt_of_le_of_ne (hmemts u hu) h3
        exact add_lt_add_right h5 delay
    have hxmem : (tn + delay, Act.drn v) ∈ as :=
      hperm.mem_iff.mpr (List.mem_append.mpr (Or.inr
        (List.mem_map.mpr ⟨tn, by simp, rfl⟩)))
    have hlast : ∃ bs, as = bs ++ [(tn + delay, Act.drn v)] := by
      rcases List.eq_nil_or_concat as with h | ⟨bs, z, hz⟩
      · rw [h] at hxmem
        simp at hxmem
      · rw [List.concat_eq_append] at hz
        refine ⟨bs, ?_⟩
        by_cases hzx : z = (tn + delay, Act.drn v)
        · rw [hz, hzx]
        · exfalso
          have hzin : z ∈ as := by rw [hz]; simp
          have hzlt : z.1 < tn + delay := htimes z hzin hzx
          have hxin2 : (tn + delay, Act.drn v) ∈ bs := by
            have h6 := hxmem
            rw [hz] at h6
            rcases List.mem_append.mp h6 with h | h
            · exact h
            · simp at h
              exact absurd h.symm hzx
          have hp2 := hple
          rw [hz] at hp2
          have h7 : timeLE (tn + delay, Act.drn v) z :=
            (List.pairwise_append.mp hp2).2.2 _ hxin2 z (by simp)
          have h8 : tn + delay ≤ z.1 := h7
          exact absurd hzlt (not_lt.mpr h8)
    have hcount : as.countP (fun y => decide (y = (tn + delay, Act.drn v))) = 1 := by
      rw [hperm.countP_eq, List.countP_append, cntP_map_mod_eq, cntP_map_drn_eq]
      rw [List.countP_append]
      have h0 : ts0.countP (fun u => decide (u = tn)) = 0 := by
        rw [List.countP_eq_zero]
        intro x hx
        simp only [decide_eq_true_eq]
        exact ne_of_lt (hmemlt x hx)
      rw [h0]
      simp
    have hsplit : ∀ p t2 r, as = p ++ (t2, Act.drn v) :: r →
        (r ≠ [] → drnCnt p + 2 ≤ ([] : List Nat).length + modCnt p) ∧
        (r = [] → ([] : List Nat).length + modCnt p = drnCnt p + 1) := by
      intro p t2 r heq
      have hxin : (t2, Act.drn v) ∈ as := by rw [heq]; simp
      have hu : ∃ u ∈ ts0 ++ [tn], t2 = u + delay := by
        rcases hmem_as _ hxin with ⟨u, hu2, he⟩ | ⟨u, hu2, he⟩
        · have h2 := congrArg Prod.snd he
          simp at h2
        · exact ⟨u, hu2, congrArg Prod.fst he⟩
      obtain ⟨u, hu_mem, rfl⟩ := hu
      have hp2 := hple
      rw [heq] at hp2
      have hpa := List.pairwise_append.mp hp2
      have hp_le : ∀ y ∈ p, y.1 ≤ u + delay := by
        intro y hy
        have h8 : timeLE y (u + delay, Act.drn v) :=
          hpa.2.2 y hy (u + delay, Act.drn v) (List.mem_cons_self _ _)
        exact h8
      have hr_ge : ∀ z ∈ r, u + delay ≤ z.1 := by
        intro z hz
        have h8 : timeLE (u + delay, Act.drn v) z :=
          (List.pairwise_cons.mp hpa.2.1).1 z hz
        exact h8
      constructor
      · intro hr
        have hune : u ≠ tn := by
          intro hutn
          subst hutn
          obtain ⟨z0, r2, hr2⟩ := List.exists_cons_of_ne_nil hr
          have hz0in : z0 ∈ as := by rw [heq, hr2]; simp
          have hz0ge : u + delay ≤ z0.1 := hr_ge z0 (by rw [hr2]; simp)
          have hz0 : z0 = (u + delay, Act.drn v) := by
            by_contra hzz
            exact absurd (htimes z0 hz0in hzz) (not_lt.mpr hz0ge)
          have hc := hcount
          rw [heq, hr2, hz0, List.countP_append, List.countP_cons,
            List.countP_cons] at hc
          simp at hc
          omega
        have hu0 : u ∈ ts0 := by
          rcases List.mem_append.mp hu_mem with h | h
          · exact h
          · simp at h
            exact absurd h hune
        have hDb : drnCnt p + 1 ≤ (ts0 ++ [tn]).countP (fun x => decide (x ≤ u)) := by
          have e1 : drnCnt p = p.countP
              (fun y => isDrnA y.2 && decide (y.1 ≤ u + delay)) := by
            apply List.countP_congr
            intro y hy
            simp [hp_le y hy]
          have e2 : p.countP (fun y => isDrnA y.2 && decide (y.1 ≤ u + delay)) + 1 ≤
              as.countP (fun y => isDrnA y.2 && decide (y.1 ≤ u + delay)) := by
            rw [heq, List.countP_append, List.countP_cons]
            simp [isDrnA]
          have e3 : as.countP (fun y => isDrnA y.2 && decide (y.1 ≤ u + delay)) =
              (ts0 ++ [tn]).countP (fun x => decide (x ≤ u)) := by
            rw [hperm.countP_eq, List.countP_append, cntP_map_mod_isDrn_le,
              cntP_map_drn_isDrn_le]
            have h9 : (ts0 ++ [tn]).countP (fun u2 => decide (u2 + delay ≤ u + delay)) =
                (ts0 ++ [tn]).countP (fun x => decide (x ≤ u)) :=
              List.countP_congr (fun x _ => by simp)
            rw [h9]
            omega
          omega
        have hMb : (ts0 ++ [tn]).countP (fun x => decide (x < u + delay)) ≤
            modCnt p := by
          have hr0 : r.countP (fun y => isModA y.2 && decide (y.1 < u + delay)) = 0 := by
            rw [List.countP_eq_zero]
            intro z hz
            simp only [Bool.and_eq_true, decide_eq_true_eq, not_and]
            intro _
            exact not_lt.mpr (hr_ge z hz)
          have e1 : as.countP (fun y => isModA y.2 && decide (y.1 < u + delay)) =
              p.countP (fun y => isModA y.2 && decide (y.1 < u + delay)) := by
            rw [heq, List.countP_append, List.countP_cons, hr0]
            simp [isModA]
          have e2 : p.countP (fun y => isModA y.2 && decide (y.1 < u + delay)) ≤
              modCnt p := by
            apply List.countP_mono_left
            intro y _ h
            simp only [Bool.and_eq_true] at h
            exact h.1
          have e3 : as.countP (fun y => isModA y.2 && decide (y.1 < u + delay)) =
              (ts0 ++ [tn]).countP (fun x => decide (x < u + delay)) := by
            rw [hperm.countP_eq, List.countP_append, cntP_map_mod_isMod_lt,
              cntP_map_drn_isMod_lt]
            omega
          omega
        have hS := succ_count delay hdel ts0 tn hpw_ts hgap u hu0
        simp only [List.length_nil]
        omega
      · intro hr
        subst hr
        have hNmod : modCnt as = (ts0 ++ [tn]).length := by
          unfold modCnt
          rw [hperm.countP_eq, List.countP_append, cntP_map_mod_isMod,
            cntP_map_drn_isMod]
          omega
        have hNdrn : drnCnt as = (ts0 ++ [tn]).length := by
          unfold drnCnt
          rw [hperm.countP_eq, List.countP_append, cntP_map_mod_isDrn,
            cntP_map_drn_isDrn]
          omega
        have e1 : modCnt as = modCnt p := by
          rw [heq]
          unfold modCnt
          rw [List.countP_append, List.countP_cons]
          simp [isModA]
        have e2 : drnCnt as = drnCnt p + 1 := by
          rw [heq]
          unfold drnCnt
          rw [List.countP_append, List.countP_cons]
          simp [isDrnA]
        have hlen2 : (ts0 ++ [tn]).length = ts0.length + 1 := by simp
        simp only [List.length_nil]
        omega
    have hg : guardPass s v = true := by simp [guardPass, henabled, hdirty, hpath]
    have hcb : callback v = true := callback_dirty v hdirty hloading
    obtain ⟨bs, hbs⟩ := hlast
    have hcore := burst_drain_core s v hg hcb bs (tn + delay) [] []
      (by intro a2 ha2; exact hshape a2 (by rw [hbs]; exact ha2))
      (by intro p t2 r heq2; exact hsplit p t2 r (hbs.trans heq2))
    have hfin : (simulate as).2 = [tn + delay] := by
      show (simAux ([], []) as).2 = [tn + delay]
      rw [hbs, hcore]
      simp
    rw [hfin]
    simp

/-- Witness for C1: a one-event burst at time zero with delay one, with
its drain at time one: exactly one save, recorded at time one. -/
theorem C1_single_burst_witness :
    (simulate [((0 : ℚ), Act.mod sOn vDirty), ((1 : ℚ), Act.drn vDirty)]).2 =
      [(1 : ℚ)] := by
  have hperm : ([((0 : ℚ), Act.mod sOn vDirty), ((1 : ℚ), Act.drn vDirty)]).Perm
      (([0] : List ℚ).map (fun u => (u, Act.mod sOn vDirty)) ++
        ([0] : List ℚ).map (fun u => (u + 1, Act.drn vDirty))) := by
    simp only [List.map_cons, List.map_nil, List.singleton_append]
    rw [show (0 : ℚ) + 1 = 1 from by norm_num]
  have hsorted : List.Chain' timeLE
      [((0 : ℚ), Act.mod sOn vDirty), ((1 : ℚ), Act.drn vDirty)] :=
    List.chain'_cons.mpr ⟨show (0 : ℚ) ≤ 1 by norm_num, List.chain'_singleton _⟩
  have h := C1_single_burst sOn vDirty 1 [0] (by simp) rfl rfl rfl rfl
    (by norm_num) rfl (List.chain'_singleton 0) (List.chain'_singleton 0)
    [((0 : ℚ), Act.mod sOn vDirty), ((1 : ℚ), Act.drn vDirty)] hperm hsorted
  simpa using h
